import Mathlib

/-!
Shallow embedding of the particle quadtree gravity simulator
(`src/util/vector2d.rs`, `src/util/particle.rs`, `src/util/particle_quad_tree.rs`).

The Rust code is generic over a numeric type `T` and is instantiated with `f32`.
The embedding works over `ℚ` (exact arithmetic): every arithmetic operation of
the source is translated literally, with the one caveat that `x / 0 = 0` over
`ℚ` where `f32` would produce `inf`/`NaN`; statements about degenerate
(zero-distance) configurations therefore carry explicit non-degeneracy
hypotheses.

Panicking operations (`Vec::get(..).unwrap()`) are modelled with `Option`
(`none` = panic).  `ParticleQuadTree::insert` recurses after a split into
freshly created children and its termination is not structural, so it is
modelled with an explicit fuel parameter; `none` also covers fuel exhaustion.
All theorems about `insert` are conditional on it returning `some`, which
corresponds exactly to a terminating, non-panicking Rust call.
-/

/-- Model of `Vector2D<T>` (src/util/vector2d.rs): a plain 2D vector. -/
@[ext]
structure Vector2D where
  x : ℚ
  y : ℚ
deriving DecidableEq

/-- Componentwise addition, `impl Add for Vector2D`. -/
def Vector2D.add (a b : Vector2D) : Vector2D := ⟨a.x + b.x, a.y + b.y⟩

/-- Componentwise subtraction, `impl Sub for Vector2D`. -/
def Vector2D.sub (a b : Vector2D) : Vector2D := ⟨a.x - b.x, a.y - b.y⟩

/-- Scaling by a scalar on the right, `impl Mul<T> for Vector2D`. -/
def Vector2D.smul (v : Vector2D) (k : ℚ) : Vector2D := ⟨v.x * k, v.y * k⟩

/-- Squared length, `Vector2D::length_sq`. -/
def Vector2D.length_sq (v : Vector2D) : ℚ := v.x * v.x + v.y * v.y

instance : Zero Vector2D := ⟨⟨0, 0⟩⟩

instance : Add Vector2D := ⟨Vector2D.add⟩

@[simp] theorem Vector2D.zero_def : (0 : Vector2D) = ⟨0, 0⟩ := rfl

@[simp] theorem Vector2D.add_def (a b : Vector2D) : a + b = ⟨a.x + b.x, a.y + b.y⟩ := rfl

@[simp] theorem Vector2D.zero_x : (0 : Vector2D).x = 0 := rfl

@[simp] theorem Vector2D.zero_y : (0 : Vector2D).y = 0 := rfl

instance : AddCommMonoid Vector2D where
  add_assoc a b c := by simp [add_assoc]
  zero_add a := by simp
  add_zero a := by simp
  add_comm a b := by simp [add_comm]
  nsmul := nsmulRec

/-- Model of `Particle<T>` (src/util/particle.rs). -/
@[ext]
structure Particle where
  position : Vector2D
  velocity : Vector2D
  radius : ℚ
  mass : ℚ
deriving DecidableEq

instance : Inhabited Particle := ⟨⟨⟨0, 0⟩, ⟨0, 0⟩, 0, 0⟩⟩

mutual

/-- Model of `ParticleQuadTree<T>` (src/util/particle_quad_tree.rs, lines 16-24):
center, summary particle, width, height, max capacity, element count, and the
node body.  The Rust `struct` containing an `enum` field becomes a pair of
mutually inductive types. -/
inductive ParticleQuadTree where
  | mk (center : Vector2D) (summary_particle : Particle) (width height : ℚ)
      (max_capacity : Nat) (num_elements : Nat) (node : QuadtreeNode)

/-- Model of `QuadtreeNode<T>` (lines 26-36): an internal node with four owned
children, or a leaf with a list of particle indices. -/
inductive QuadtreeNode where
  | node (top_left top_right bottom_left bottom_right : ParticleQuadTree)
  | leaf (element_indices : List Nat)

end

/-- Field accessor for `center`. -/
def ParticleQuadTree.center : ParticleQuadTree → Vector2D
  | .mk c _ _ _ _ _ _ => c

/-- Field accessor for `summary_particle`. -/
def ParticleQuadTree.summary_particle : ParticleQuadTree → Particle
  | .mk _ s _ _ _ _ _ => s

/-- Field accessor for `width`. -/
def ParticleQuadTree.width : ParticleQuadTree → ℚ
  | .mk _ _ w _ _ _ _ => w

/-- Field accessor for `height`. -/
def ParticleQuadTree.height : ParticleQuadTree → ℚ
  | .mk _ _ _ h _ _ _ => h

/-- Field accessor for `max_capacity`. -/
def ParticleQuadTree.max_capacity : ParticleQuadTree → Nat
  | .mk _ _ _ _ mc _ _ => mc

/-- Field accessor for `num_elements`. -/
def ParticleQuadTree.num_elements : ParticleQuadTree → Nat
  | .mk _ _ _ _ _ n _ => n

/-- Field accessor for the node body. -/
def ParticleQuadTree.node : ParticleQuadTree → QuadtreeNode
  | .mk _ _ _ _ _ _ nd => nd

/-- The `top_left` child of an internal node, `none` on a leaf. -/
def ParticleQuadTree.topLeft? : ParticleQuadTree → Option ParticleQuadTree
  | .mk _ _ _ _ _ _ (.node tl _ _ _) => some tl
  | _ => none

/-- The `top_right` child of an internal node, `none` on a leaf. -/
def ParticleQuadTree.topRight? : ParticleQuadTree → Option ParticleQuadTree
  | .mk _ _ _ _ _ _ (.node _ tr _ _) => some tr
  | _ => none

/-- The `bottom_left` child of an internal node, `none` on a leaf. -/
def ParticleQuadTree.bottomLeft? : ParticleQuadTree → Option ParticleQuadTree
  | .mk _ _ _ _ _ _ (.node _ _ bl _) => some bl
  | _ => none

/-- The `bottom_right` child of an internal node, `none` on a leaf. -/
def ParticleQuadTree.bottomRight? : ParticleQuadTree → Option ParticleQuadTree
  | .mk _ _ _ _ _ _ (.node _ _ _ br) => some br
  | _ => none

/-- All particle indices reachable in leaves at or beneath a node, in the
fixed child order top_left, top_right, bottom_left, bottom_right.  This is a
specification-side observer used to state reachability claims. -/
def ParticleQuadTree.allIndices : ParticleQuadTree → List Nat
  | .mk _ _ _ _ _ _ (.node tl tr bl br) =>
    tl.allIndices ++ tr.allIndices ++ bl.allIndices ++ br.allIndices
  | .mk _ _ _ _ _ _ (.leaf l) => l

/-- Model of `ParticleQuadTree::new` (lines 56-78): an empty leaf whose summary
particle sits at the center with zero (`Default::default()`) velocity, radius
and mass. -/
def ParticleQuadTree.new (center : Vector2D) (width height : ℚ) (max_capacity : Nat) :
    ParticleQuadTree :=
  .mk center ⟨center, ⟨0, 0⟩, 0, 0⟩ width height max_capacity 0 (.leaf [])

/-- Model of the summary-particle update at the head of `insert`
(lines 84-99): on the first element the summary takes its position and mass;
afterwards the position becomes the running unweighted mean
`(pos * n + element.pos) / (n + 1)` and the mass accumulates.  Returns the new
summary particle together with the new `num_elements`. -/
def updatedSummary (summary : Particle) (num_elements : Nat) (element : Particle) :
    Particle × Nat :=
  if num_elements = 0 then
    ({ summary with position := element.position, mass := element.mass }, 1)
  else
    let cx := summary.position.x
    let cy := summary.position.y
    let n : ℚ := (num_elements : ℚ)
    let n_plus : ℚ := ((num_elements + 1 : Nat) : ℚ)
    ({ summary with
        position := ⟨(cx * n + element.position.x) / n_plus,
          (cy * n + element.position.y) / n_plus⟩,
        mass := summary.mass + element.mass },
      num_elements + 1)

/-- Model of `Vec::swap_remove(0)` (line 186): remove the first element and
move the last element into its slot; `none` on the empty vector (the loop
guard makes that case unreachable in the source). -/
def swap_remove_front : List Nat → Option (Nat × List Nat)
  | [] => none
  | [x] => some (x, [])
  | x :: y :: xs => some (x, ((y :: xs).getLast (List.cons_ne_nil y xs)) :: (y :: xs).dropLast)

mutual

/-- Model of `ParticleQuadTree::insert` (lines 80-220).  `fuel` bounds the
recursion depth (the source's recursion is not structurally terminating);
`none` models a panic (index out of range) or fuel exhaustion.  The split
branch reproduces the source literally: the four children are created with the
epsilon-inflated half dimensions, the held indices are redistributed with
strict `<` comparisons, the node becomes internal — and the index currently
being inserted is dropped (the source never routes it into a child). -/
def ParticleQuadTree.insert (fuel : Nat) (elements : List Particle)
    (t : ParticleQuadTree) (index : Nat) : Option ParticleQuadTree :=
  match fuel with
  | 0 => none
  | fuel + 1 =>
    match t with
    | .mk center summary width height max_capacity num_elements node => do
      let element ← elements[index]?
      let s2 := updatedSummary summary num_elements element
      match node with
      | .node top_left top_right bottom_left bottom_right =>
        if element.position.x ≤ center.x then
          if element.position.y ≤ center.y then do
            let tl2 ← ParticleQuadTree.insert fuel elements top_left index
            pure (.mk center s2.1 width height max_capacity s2.2
              (.node tl2 top_right bottom_left bottom_right))
          else do
            let bl2 ← ParticleQuadTree.insert fuel elements bottom_left index
            pure (.mk center s2.1 width height max_capacity s2.2
              (.node top_left top_right bl2 bottom_right))
        else
          if element.position.y ≤ center.y then do
            let tr2 ← ParticleQuadTree.insert fuel elements top_right index
            pure (.mk center s2.1 width height max_capacity s2.2
              (.node top_left tr2 bottom_left bottom_right))
          else do
            let br2 ← ParticleQuadTree.insert fuel elements bottom_right index
            pure (.mk center s2.1 width height max_capacity s2.2
              (.node top_left top_right bottom_left br2))
      | .leaf element_indices =>
        if element_indices.length < max_capacity then
          pure (.mk center s2.1 width height max_capacity s2.2
            (.leaf (element_indices ++ [index])))
        else
          let two : ℚ := 2
          let half_width := (width + two) / two
          let half_height := (height + two) / two
          let quarter_width := half_width / two
          let quarter_height := half_height / two
          let cx := center.x
          let cy := center.y
          let top_left := ParticleQuadTree.new ⟨cx - quarter_width, cy - quarter_height⟩
            half_width half_height max_capacity
          let top_right := ParticleQuadTree.new ⟨cx + quarter_width, cy - quarter_height⟩
            half_width half_height max_capacity
          let bottom_left := ParticleQuadTree.new ⟨cx - quarter_width, cy + quarter_height⟩
            half_width half_height max_capacity
          let bottom_right := ParticleQuadTree.new ⟨cx + quarter_width, cy + quarter_height⟩
            half_width half_height max_capacity
          do
            let r ← ParticleQuadTree.redistribute fuel elements cx cy element_indices
              top_left top_right bottom_left bottom_right
            pure (.mk center s2.1 width height max_capacity s2.2
              (.node r.1 r.2.1 r.2.2.1 r.2.2.2))

/-- Model of the `while !element_indices.is_empty()` redistribution loop inside
the split branch of `insert` (lines 185-209): repeatedly `swap_remove` the
front index and insert it into the child selected by strict `<` comparison of
its position against the parent center. -/
def ParticleQuadTree.redistribute (fuel : Nat) (elements : List Particle) (cx cy : ℚ)
    (element_indices : List Nat)
    (top_left top_right bottom_left bottom_right : ParticleQuadTree) :
    Option (ParticleQuadTree × ParticleQuadTree × ParticleQuadTree × ParticleQuadTree) :=
  match swap_remove_front element_indices with
  | none => some (top_left, top_right, bottom_left, bottom_right)
  | some (element_index, rest) =>
    match fuel with
    | 0 => none
    | fuel + 1 => do
      let element ← elements[element_index]?
      if element.position.x < cx then
        if element.position.y < cy then do
          let tl2 ← ParticleQuadTree.insert fuel elements top_left element_index
          ParticleQuadTree.redistribute fuel elements cx cy rest
            tl2 top_right bottom_left bottom_right
        else do
          let bl2 ← ParticleQuadTree.insert fuel elements bottom_left element_index
          ParticleQuadTree.redistribute fuel elements cx cy rest
            top_left top_right bl2 bottom_right
      else
        if element.position.y < cy then do
          let tr2 ← ParticleQuadTree.insert fuel elements top_right element_index
          ParticleQuadTree.redistribute fuel elements cx cy rest
            top_left tr2 bottom_left bottom_right
        else do
          let br2 ← ParticleQuadTree.insert fuel elements bottom_right element_index
          ParticleQuadTree.redistribute fuel elements cx cy rest
            top_left top_right bottom_left br2

end

/-- Sequence of `insert` calls on one tree, one per index in the given list,
each with the same fuel budget.  Models the per-tick population loop of the
driver: `for i in .. { tree.insert(&particles, i) }`. -/
def ParticleQuadTree.insertAll (fuel : Nat) (elements : List Particle)
    (t : ParticleQuadTree) : List Nat → Option ParticleQuadTree
  | [] => some t
  | i :: is => do
    let t2 ← ParticleQuadTree.insert fuel elements t i
    ParticleQuadTree.insertAll fuel elements t2 is

/-- One gravitational accumulation step of `tick_with_summaries`
(lines 328-332 and 339-343, textually identical in the source):
`v_dir * (G * m2 / |v_dir|²) * dt` with the unnormalized displacement vector
`v_dir = p2.position - p1.position`. -/
def pairContribution (grav_const elapsed_s : ℚ) (p1 p2 : Particle) : Vector2D :=
  let v_dir := p2.position.sub p1.position
  let r_sq := v_dir.length_sq
  let a1 := grav_const * p2.mass / r_sq
  (v_dir.smul a1).smul elapsed_s

/-- Model of the delta-velocity computation for the `i`-th slot of a leaf
(lines 314-347): sum the pair contribution over every other co-resident slot
`j ≠ i`, then over every summary particle in the distant-summaries list.
`none` models an out-of-range index panic. -/
def deltaVFor (elements : List Particle) (grav_const elapsed_s : ℚ)
    (element_indices : List Nat) (summaries : List Particle) (i : Nat) :
    Option Vector2D := do
  let dv ← (List.range element_indices.length).foldlM (fun dv j => do
      if i = j then
        pure dv
      else do
        let i1 ← element_indices[i]?
        let p1 ← elements[i1]?
        let j1 ← element_indices[j]?
        let p2 ← elements[j1]?
        pure (dv + pairContribution grav_const elapsed_s p1 p2)) (0 : Vector2D)
  summaries.foldlM (fun dv p2 => do
      let i1 ← element_indices[i]?
      let p1 ← elements[i1]?
      pure (dv + pairContribution grav_const elapsed_s p1 p2)) dv

/-- Model of the apply loop of `tick_with_summaries` (lines 350-354): for each
slot `i` of the leaf in order, add the precomputed delta velocity to the
particle's velocity, then advance its position by the updated velocity times
the elapsed time. -/
def applyUpdates (elapsed_s : ℚ) (element_indices : List Nat)
    (delta_velocities : List Vector2D) (elements : List Particle) :
    Option (List Particle) :=
  (List.range element_indices.length).foldlM (fun els i => do
    let idx ← element_indices[i]?
    let p ← els[idx]?
    let dv ← delta_velocities[i]?
    let v2 := p.velocity + dv
    pure (els.set idx { p with velocity := v2, position := p.position + v2.smul elapsed_s }))
    elements

/-- Model of `ParticleQuadTree::create_summaries` (lines 359-370): clone the
incoming list and push the three given trees' summary particles. -/
def ParticleQuadTree.create_summaries (original : List Particle)
    (tree1 tree2 tree3 : ParticleQuadTree) : List Particle :=
  original ++ [tree1.summary_particle, tree2.summary_particle, tree3.summary_particle]

/-- Model of `ParticleQuadTree::tick_with_summaries` (lines 251-357).  On an
internal node, recurse into the four children in order, passing each child the
incoming summaries list extended by the other three siblings' summary
particles; on a leaf, compute all delta velocities from the incoming particle
buffer and then apply them.  Returns the updated particle buffer (`none` =
out-of-range index panic). -/
def ParticleQuadTree.tick_with_summaries :
    ParticleQuadTree → List Particle → ℚ → ℚ → List Particle → Option (List Particle)
  | .mk _ _ _ _ _ _ (.node top_left top_right bottom_left bottom_right),
    elements, grav_const, elapsed_s, summaries => do
    let e1 ← top_left.tick_with_summaries elements grav_const elapsed_s
      (ParticleQuadTree.create_summaries summaries top_right bottom_left bottom_right)
    let e2 ← top_right.tick_with_summaries e1 grav_const elapsed_s
      (ParticleQuadTree.create_summaries summaries top_left bottom_left bottom_right)
    let e3 ← bottom_left.tick_with_summaries e2 grav_const elapsed_s
      (ParticleQuadTree.create_summaries summaries top_right top_left bottom_right)
    bottom_right.tick_with_summaries e3 grav_const elapsed_s
      (ParticleQuadTree.create_summaries summaries top_right bottom_left top_left)
  | .mk _ _ _ _ _ _ (.leaf element_indices), elements, grav_const, elapsed_s, summaries => do
    let delta_velocities ← (List.range element_indices.length).mapM
      (deltaVFor elements grav_const elapsed_s element_indices summaries)
    applyUpdates elapsed_s element_indices delta_velocities elements

/-- Model of `ParticleQuadTree::tick` (lines 247-249): run the recursive pass
with an initially empty distant-summaries list. -/
def ParticleQuadTree.tick (t : ParticleQuadTree) (elements : List Particle)
    (grav_const elapsed_s : ℚ) : Option (List Particle) :=
  t.tick_with_summaries elements grav_const elapsed_s []

/-! Basic simp lemmas for the record observers. -/

@[simp] theorem ParticleQuadTree.center_mk (c : Vector2D) (s : Particle) (w h : ℚ)
    (mc n : Nat) (nd : QuadtreeNode) : (ParticleQuadTree.mk c s w h mc n nd).center = c := rfl

@[simp] theorem ParticleQuadTree.summary_particle_mk (c : Vector2D) (s : Particle) (w h : ℚ)
    (mc n : Nat) (nd : QuadtreeNode) :
    (ParticleQuadTree.mk c s w h mc n nd).summary_particle = s := rfl

@[simp] theorem ParticleQuadTree.width_mk (c : Vector2D) (s : Particle) (w h : ℚ)
    (mc n : Nat) (nd : QuadtreeNode) : (ParticleQuadTree.mk c s w h mc n nd).width = w := rfl

@[simp] theorem ParticleQuadTree.height_mk (c : Vector2D) (s : Particle) (w h : ℚ)
    (mc n : Nat) (nd : QuadtreeNode) : (ParticleQuadTree.mk c s w h mc n nd).height = h := rfl

@[simp] theorem ParticleQuadTree.max_capacity_mk (c : Vector2D) (s : Particle) (w h : ℚ)
    (mc n : Nat) (nd : QuadtreeNode) :
    (ParticleQuadTree.mk c s w h mc n nd).max_capacity = mc := rfl

@[simp] theorem ParticleQuadTree.num_elements_mk (c : Vector2D) (s : Particle) (w h : ℚ)
    (mc n : Nat) (nd : QuadtreeNode) :
    (ParticleQuadTree.mk c s w h mc n nd).num_elements = n := rfl

@[simp] theorem ParticleQuadTree.node_mk (c : Vector2D) (s : Particle) (w h : ℚ)
    (mc n : Nat) (nd : QuadtreeNode) : (ParticleQuadTree.mk c s w h mc n nd).node = nd := rfl

/-- A successful `insert` call looks up the element, leaves the node's
geometry fields untouched, and replaces summary particle and element count by
the `updatedSummary` step — in every branch, including the split branch. -/
theorem ParticleQuadTree.insert_root_step (fuel : Nat) (elements : List Particle)
    (t t2 : ParticleQuadTree) (index : Nat)
    (hins : ParticleQuadTree.insert fuel elements t index = some t2) :
    ∃ e, elements[index]? = some e ∧
      t2.center = t.center ∧ t2.width = t.width ∧ t2.height = t.height ∧
      t2.max_capacity = t.max_capacity ∧
      t2.summary_particle = (updatedSummary t.summary_particle t.num_elements e).1 ∧
      t2.num_elements = (updatedSummary t.summary_particle t.num_elements e).2 := by
  match fuel, t with
  | 0, t => simp [ParticleQuadTree.insert] at hins
  | fuel + 1, .mk c s w h mc n (.node tl tr bl br) =>
    simp only [ParticleQuadTree.insert, Option.bind_eq_bind, Option.bind_eq_some,
      Option.pure_def, Option.some_inj] at hins
    obtain ⟨e, helem, hins⟩ := hins
    refine ⟨e, helem, ?_⟩
    split at hins <;> split at hins <;>
      (rw [Option.bind_eq_some] at hins; obtain ⟨u, hu, ht2⟩ := hins;
        rw [Option.some_inj] at ht2; subst ht2; simp)
  | fuel + 1, .mk c s w h mc n (.leaf l) =>
    simp only [ParticleQuadTree.insert, Option.bind_eq_bind, Option.bind_eq_some,
      Option.pure_def, Option.some_inj] at hins
    obtain ⟨e, helem, hins⟩ := hins
    refine ⟨e, helem, ?_⟩
    split at hins
    · rw [Option.some_inj] at hins; subst hins; simp
    · rw [Option.bind_eq_some] at hins
      obtain ⟨u, hu, ht2⟩ := hins
      rw [Option.some_inj] at ht2; subst ht2; simp

/-- Invariant carried by a sequence of `insert` calls: if a tree's summary
fields reflect a list `ps` of already-inserted particles (count, total mass,
unweighted mean position, untouched velocity and radius), then after
successfully inserting the indices `idxs` they reflect
`ps ++ idxs.filterMap (elements[·]?)`. -/
theorem ParticleQuadTree.insertAll_summary_inv (fuel : Nat) (elements : List Particle)
    (idxs : List Nat) :
    ∀ (t t2 : ParticleQuadTree) (ps : List Particle) (vel : Vector2D) (rad : ℚ),
      ParticleQuadTree.insertAll fuel elements t idxs = some t2 →
      t.num_elements = ps.length →
      t.summary_particle.mass = (ps.map Particle.mass).sum →
      t.summary_particle.velocity = vel →
      t.summary_particle.radius = rad →
      (ps ≠ [] → t.summary_particle.position =
        ⟨((ps.map fun p => p.position.x).sum) / (ps.length : ℚ),
         ((ps.map fun p => p.position.y).sum) / (ps.length : ℚ)⟩) →
      let qs := ps ++ idxs.filterMap (fun i => elements[i]?)
      t2.num_elements = qs.length ∧
      t2.summary_particle.mass = (qs.map Particle.mass).sum ∧
      t2.summary_particle.velocity = vel ∧
      t2.summary_particle.radius = rad ∧
      (qs ≠ [] → t2.summary_particle.position =
        ⟨((qs.map fun p => p.position.x).sum) / (qs.length : ℚ),
         ((qs.map fun p => p.position.y).sum) / (qs.length : ℚ)⟩) := by
  induction idxs with
  | nil =>
    intro t t2 ps vel rad hins hn hm hv hr hp
    simp only [ParticleQuadTree.insertAll, Option.some_inj] at hins
    subst hins
    simpa using ⟨hn, hm, hv, hr, hp⟩
  | cons i is ih =>
    intro t t2 ps vel rad hins hn hm hv hr hp
    simp only [ParticleQuadTree.insertAll, Option.bind_eq_bind, Option.bind_eq_some] at hins
    obtain ⟨tm, h1, h2⟩ := hins
    obtain ⟨e, helem, -, -, -, -, hsum, hnum⟩ :=
      ParticleQuadTree.insert_root_step fuel elements t tm i h1
    have hmid : tm.num_elements = (ps ++ [e]).length ∧
        tm.summary_particle.mass = ((ps ++ [e]).map Particle.mass).sum ∧
        tm.summary_particle.velocity = vel ∧
        tm.summary_particle.radius = rad ∧
        ((ps ++ [e]) ≠ [] → tm.summary_particle.position =
          ⟨(((ps ++ [e]).map fun p => p.position.x).sum) / (((ps ++ [e]).length : Nat) : ℚ),
           (((ps ++ [e]).map fun p => p.position.y).sum) / (((ps ++ [e]).length : Nat) : ℚ)⟩) := by
      rcases eq_or_ne ps [] with hps | hps
      · subst hps
        simp only [List.length_nil] at hn
        rw [hsum, hnum, updatedSummary, hn]
        simp [hv, hr, Vector2D.ext_iff]
      · have hlen0 : ps.length ≠ 0 := by simpa [List.length_eq_zero] using hps
        have hcast : ((ps.length : Nat) : ℚ) ≠ 0 := by exact_mod_cast hlen0
        have hcast1 : ((ps.length : Nat) : ℚ) + 1 ≠ 0 := by positivity
        rw [hsum, hnum, updatedSummary, hn]
        rw [if_neg hlen0]
        have hpos := hp hps
        refine ⟨by simp, ?_, by simp [hv], by simp [hr], ?_⟩
        · simp [hm]
        · intro _
          rw [hpos]
          simp only [Vector2D.mk.injEq, List.map_append, List.sum_append, List.length_append,
            List.map_cons, List.map_nil, List.sum_cons, List.sum_nil]
          constructor <;> (push_cast; field_simp)
    obtain ⟨hn2, hm2, hv2, hr2, hp2⟩ := hmid
    have := ih tm t2 (ps ++ [e]) vel rad h2 hn2 hm2 hv2 hr2 hp2
    simpa [List.filterMap_cons, helem] using this

/-- A successful `insertAll` call implies every inserted index was in bounds,
so the `filterMap` lookup of the index list loses nothing. -/
theorem ParticleQuadTree.insertAll_lookups (fuel : Nat) (elements : List Particle) :
    ∀ (idxs : List Nat) (t t2 : ParticleQuadTree),
      ParticleQuadTree.insertAll fuel elements t idxs = some t2 →
      (idxs.filterMap fun i => elements[i]?).length = idxs.length := by
  intro idxs
  induction idxs with
  | nil => intro t t2 _; simp
  | cons i is ih =>
    intro t t2 hins
    simp only [ParticleQuadTree.insertAll, Option.bind_eq_bind, Option.bind_eq_some] at hins
    obtain ⟨tm, h1, h2⟩ := hins
    obtain ⟨e, helem, -⟩ := ParticleQuadTree.insert_root_step fuel elements t tm i h1
    simp [List.filterMap_cons, helem, ih tm t2 h2]

/-- C4: after any successful sequence of insertions into a fresh tree, the
summary particle's mass is the sum of the masses of the inserted particles and
its position is the unweighted arithmetic mean of their positions (equal
per-particle weighting, not mass-weighted); moreover, any permutation of the
insertion sequence yields the identical summary particle, so both values
depend only on the multiset of inserted particles.  Every node of a tree built
by the program is itself `ParticleQuadTree.new` followed by the subsequence of
insert calls routed through it, so this covers every node. -/
theorem ParticleQuadTree.summary_is_mass_sum_and_unweighted_mean
    (fuel : Nat) (elements : List Particle) (c0 : Vector2D) (w0 h0 : ℚ) (cap : Nat)
    (idxs : List Nat) (t : ParticleQuadTree)
    (hins : ParticleQuadTree.insertAll fuel elements
      (ParticleQuadTree.new c0 w0 h0 cap) idxs = some t) :
    t.summary_particle.mass =
      (((idxs.filterMap fun i => elements[i]?).map Particle.mass).sum) ∧
    (idxs ≠ [] → t.summary_particle.position =
      ⟨(((idxs.filterMap fun i => elements[i]?).map fun p => p.position.x).sum) /
          (((idxs.filterMap fun i => elements[i]?).length : Nat) : ℚ),
        (((idxs.filterMap fun i => elements[i]?).map fun p => p.position.y).sum) /
          (((idxs.filterMap fun i => elements[i]?).length : Nat) : ℚ)⟩) ∧
    (∀ (idxs2 : List Nat) (t2 : ParticleQuadTree), idxs2.Perm idxs →
      ParticleQuadTree.insertAll fuel elements
        (ParticleQuadTree.new c0 w0 h0 cap) idxs2 = some t2 →
      t2.summary_particle = t.summary_particle) := by
  have base : ∀ (idxs' : List Nat) (t' : ParticleQuadTree),
      ParticleQuadTree.insertAll fuel elements
        (ParticleQuadTree.new c0 w0 h0 cap) idxs' = some t' →
      t'.num_elements = (idxs'.filterMap fun i => elements[i]?).length ∧
      t'.summary_particle.mass =
        (((idxs'.filterMap fun i => elements[i]?).map Particle.mass).sum) ∧
      t'.summary_particle.velocity = ⟨0, 0⟩ ∧
      t'.summary_particle.radius = 0 ∧
      ((idxs'.filterMap fun i => elements[i]?) ≠ [] → t'.summary_particle.position =
        ⟨(((idxs'.filterMap fun i => elements[i]?).map fun p => p.position.x).sum) /
            (((idxs'.filterMap fun i => elements[i]?).length : Nat) : ℚ),
          (((idxs'.filterMap fun i => elements[i]?).map fun p => p.position.y).sum) /
            (((idxs'.filterMap fun i => elements[i]?).length : Nat) : ℚ)⟩) := by
    intro idxs' t' h
    have := ParticleQuadTree.insertAll_summary_inv fuel elements idxs'
      (ParticleQuadTree.new c0 w0 h0 cap) t' [] ⟨0, 0⟩ 0 h
      (by simp [ParticleQuadTree.new]) (by simp [ParticleQuadTree.new])
      (by simp [ParticleQuadTree.new]) (by simp [ParticleQuadTree.new]) (by simp)
    simpa using this
  obtain ⟨hn, hm, hv, hr, hp⟩ := base idxs t hins
  have hflen := ParticleQuadTree.insertAll_lookups fuel elements idxs (ParticleQuadTree.new c0 w0 h0 cap) t hins
  refine ⟨hm, ?_, ?_⟩
  · intro hne
    apply hp
    intro hnil
    rw [hnil] at hflen
    exact hne (List.length_eq_zero.mp hflen.symm)
  · intro idxs2 t2 hperm hins2
    obtain ⟨hn2, hm2, hv2, hr2, hp2⟩ := base idxs2 t2 hins2
    have hflen2 := ParticleQuadTree.insertAll_lookups fuel elements idxs2 (ParticleQuadTree.new c0 w0 h0 cap) t2 hins2
    have hfperm : (idxs2.filterMap fun i => elements[i]?).Perm
        (idxs.filterMap fun i => elements[i]?) := hperm.filterMap _
    have hmass : t2.summary_particle.mass = t.summary_particle.mass := by
      rw [hm, hm2, (hfperm.map Particle.mass).sum_eq]
    have hvel : t2.summary_particle.velocity = t.summary_particle.velocity := by
      rw [hv, hv2]
    have hrad : t2.summary_particle.radius = t.summary_particle.radius := by
      rw [hr, hr2]
    rcases eq_or_ne idxs [] with hnil | hnil
    · subst hnil
      have hnil2 : idxs2 = [] := hperm.eq_nil
      subst hnil2
      simp only [ParticleQuadTree.insertAll, Option.some_inj] at hins hins2
      rw [← hins, ← hins2]
    · have hqne : (idxs.filterMap fun i => elements[i]?) ≠ [] := by
        intro hq
        rw [hq] at hflen
        exact hnil (List.length_eq_zero.mp hflen.symm)
      have hqne2 : (idxs2.filterMap fun i => elements[i]?) ≠ [] := by
        intro hq
        rw [hq] at hflen2
        refine hnil (List.length_eq_zero.mp ?_)
        rw [← hperm.length_eq, ← hflen2]
        simp
      have hpos : t2.summary_particle.position = t.summary_particle.position := by
        rw [hp hqne, hp2 hqne2, hfperm.length_eq,
          (hfperm.map fun p => p.position.x).sum_eq,
          (hfperm.map fun p => p.position.y).sum_eq]
      exact Particle.ext hpos hvel hrad hmass

/-- Two particles on opposite sides of the origin; inserting both into a
capacity-1 tree forces a split on the second insertion. -/
def c1elements : List Particle :=
  [⟨⟨1, 1⟩, ⟨0, 0⟩, 1, 1⟩, ⟨⟨-1, -1⟩, ⟨0, 0⟩, 1, 1⟩]

/-- C1: the code drops the index being inserted when a leaf at capacity
splits.  Inserting index 0 and then index 1 into a fresh capacity-1 tree
succeeds, the node splits, index 0 is redistributed into a child — but index 1
is reachable in no leaf of the resulting tree, contradicting the claim that
the incoming index is routed into the appropriate new child. -/
theorem insert_at_capacity_drops_incoming_index :
    ((ParticleQuadTree.insert 3 c1elements (ParticleQuadTree.new ⟨0, 0⟩ 10 10 1) 0).bind
      (fun t => ParticleQuadTree.insert 3 c1elements t 1)).map
        ParticleQuadTree.allIndices = some [0] ∧ (1 : Nat) ∉ ([0] : List Nat) := by
  constructor
  · decide
  · decide

/-- Two particles on the diagonal of a smaller box; same split-triggering
shape as `c1elements` but a distinct concrete input. -/
def c2elements : List Particle :=
  [⟨⟨2, 2⟩, ⟨0, 0⟩, 1, 1⟩, ⟨⟨-2, -2⟩, ⟨0, 0⟩, 1, 1⟩]

/-- C2: after the split triggered by the second insertion, the root counts
`num_elements = 2` but only one index is reachable beneath it (the incoming
index was dropped, see C1), so `num_elements` does not equal the number of
reachable indices. -/
theorem num_elements_overcounts_reachable_after_split :
    ((ParticleQuadTree.insert 3 c2elements (ParticleQuadTree.new ⟨0, 0⟩ 8 8 1) 0).bind
      (fun t => ParticleQuadTree.insert 3 c2elements t 1)).map
        (fun t => (t.num_elements, t.allIndices.length)) = some (2, 1) ∧ (2 : Nat) ≠ 1 := by
  constructor
  · decide
  · decide

/-- C5: processing an internal node ticks exactly the four children in order,
threading the particle buffer through, and the distant-summaries list passed
to each child is the parent's incoming list with the summary particles of
precisely the other three sibling children appended; the internal node itself
performs no force computation on the buffer. -/
theorem tick_internal_node_distributes_sibling_summaries
    (c : Vector2D) (s : Particle) (w h : ℚ) (mc n : Nat)
    (tl tr bl br : ParticleQuadTree) (elements : List Particle)
    (grav_const elapsed_s : ℚ) (summaries : List Particle) :
    (ParticleQuadTree.mk c s w h mc n (.node tl tr bl br)).tick_with_summaries
        elements grav_const elapsed_s summaries =
      ((tl.tick_with_summaries elements grav_const elapsed_s
          (summaries ++ [tr.summary_particle, bl.summary_particle, br.summary_particle])).bind
        fun e1 => (tr.tick_with_summaries e1 grav_const elapsed_s
          (summaries ++ [tl.summary_particle, bl.summary_particle, br.summary_particle])).bind
        fun e2 => (bl.tick_with_summaries e2 grav_const elapsed_s
          (summaries ++ [tr.summary_particle, tl.summary_particle, br.summary_particle])).bind
        fun e3 => br.tick_with_summaries e3 grav_const elapsed_s
          (summaries ++ [tr.summary_particle, bl.summary_particle, tl.summary_particle])) := by
  simp only [ParticleQuadTree.tick_with_summaries, ParticleQuadTree.create_summaries,
    Option.bind_eq_bind]

/-- C10: a child quadrant created by `ParticleQuadTree.new` (as the split does)
carries the constructor summary — zero mass, position at the quadrant center —
and a zero-mass summary particle contributes the zero vector to any particle's
delta velocity whose position differs from the summary position. -/
theorem fresh_node_summary_zero_mass_and_zero_contribution :
    (∀ (c : Vector2D) (w h : ℚ) (mc : Nat),
      (ParticleQuadTree.new c w h mc).summary_particle.mass = 0 ∧
      (ParticleQuadTree.new c w h mc).summary_particle.position = c) ∧
    (∀ (grav_const elapsed_s : ℚ) (p1 q : Particle), q.mass = 0 →
      q.position ≠ p1.position →
      pairContribution grav_const elapsed_s p1 q = 0) := by
  constructor
  · intro c w h mc
    exact ⟨rfl, rfl⟩
  · intro grav_const elapsed_s p1 q hm _
    simp [pairContribution, Vector2D.smul, hm, Vector2D.ext_iff]

/-- Witness for C10: a concrete zero-mass summary at (5,5) acting on a
particle at (1,1) contributes exactly the zero vector. -/
theorem fresh_node_summary_zero_contribution_witness :
    (⟨⟨5, 5⟩, ⟨0, 0⟩, 0, 0⟩ : Particle).mass = 0 ∧
    (⟨⟨5, 5⟩, ⟨0, 0⟩, 0, 0⟩ : Particle).position ≠
      (⟨⟨1, 1⟩, ⟨0, 0⟩, 1, 1⟩ : Particle).position ∧
    pairContribution 10 (1/30) ⟨⟨1, 1⟩, ⟨0, 0⟩, 1, 1⟩ ⟨⟨5, 5⟩, ⟨0, 0⟩, 0, 0⟩ = 0 := by
  have hne : (⟨⟨5, 5⟩, ⟨0, 0⟩, 0, 0⟩ : Particle).position ≠
      (⟨⟨1, 1⟩, ⟨0, 0⟩, 1, 1⟩ : Particle).position := by
    simp only [Vector2D.ext_iff]
    norm_num
  exact ⟨rfl, hne,
    fresh_node_summary_zero_mass_and_zero_contribution.2 10 (1/30)
      ⟨⟨1, 1⟩, ⟨0, 0⟩, 1, 1⟩ ⟨⟨5, 5⟩, ⟨0, 0⟩, 0, 0⟩ rfl hne⟩

/-- Two particles with different masses (2 and 3) used to exercise the
summary invariant: the mean position must be unweighted. -/
def c4elements : List Particle :=
  [⟨⟨1, 2⟩, ⟨0, 0⟩, 1, 2⟩, ⟨⟨5, 6⟩, ⟨0, 0⟩, 1, 3⟩]

/-- The tree obtained by inserting indices 0 and 1 of `c4elements` into a
fresh capacity-5 tree: summary mass 5, summary position the unweighted mean
(3,4) of (1,2) and (5,6) — not the mass-weighted mean (3.4, 4.4). -/
def c4tree : ParticleQuadTree :=
  .mk ⟨0, 0⟩ ⟨⟨3, 4⟩, ⟨0, 0⟩, 0, 5⟩ 100 100 5 2 (.leaf [0, 1])

/-- Witness for C4 at a concrete input: inserting particles of mass 2 at
(1,2) and mass 3 at (5,6) yields summary mass equal to the sum of the
looked-up masses and summary position equal to their unweighted mean. -/
theorem summary_mass_sum_and_unweighted_mean_witness :
    ParticleQuadTree.insertAll 3 c4elements
      (ParticleQuadTree.new ⟨0, 0⟩ 100 100 5) [0, 1] = some c4tree ∧
    c4tree.summary_particle.mass =
      (((([0, 1] : List Nat).filterMap fun i => c4elements[i]?).map Particle.mass).sum) ∧
    c4tree.summary_particle.position =
      ⟨((((([0, 1] : List Nat).filterMap fun i => c4elements[i]?)).map
            fun p => p.position.x).sum) /
          ((((([0, 1] : List Nat).filterMap fun i => c4elements[i]?)).length : Nat) : ℚ),
        ((((([0, 1] : List Nat).filterMap fun i => c4elements[i]?)).map
            fun p => p.position.y).sum) /
          ((((([0, 1] : List Nat).filterMap fun i => c4elements[i]?)).length : Nat) : ℚ)⟩ := by
  have hins : ParticleQuadTree.insertAll 3 c4elements
      (ParticleQuadTree.new ⟨0, 0⟩ 100 100 5) [0, 1] = some c4tree := by
    norm_num [ParticleQuadTree.insertAll, ParticleQuadTree.insert, updatedSummary,
      ParticleQuadTree.new, c4elements, c4tree]
  have hmain := ParticleQuadTree.summary_is_mass_sum_and_unweighted_mean
    3 c4elements ⟨0, 0⟩ 100 100 5 [0, 1] c4tree hins
  exact ⟨hins, hmain.1, hmain.2.1 (by simp)⟩

/-- The redistribution loop of a split only inserts into the four freshly
created children; it never changes their centers, widths or heights. -/
theorem ParticleQuadTree.redistribute_preserves_geometry :
    ∀ (fuel : Nat) (elements : List Particle) (cx cy : ℚ) (l : List Nat)
      (tl tr bl br q1 q2 q3 q4 : ParticleQuadTree),
      ParticleQuadTree.redistribute fuel elements cx cy l tl tr bl br =
        some (q1, q2, q3, q4) →
      (q1.center = tl.center ∧ q1.width = tl.width ∧ q1.height = tl.height) ∧
      (q2.center = tr.center ∧ q2.width = tr.width ∧ q2.height = tr.height) ∧
      (q3.center = bl.center ∧ q3.width = bl.width ∧ q3.height = bl.height) ∧
      (q4.center = br.center ∧ q4.width = br.width ∧ q4.height = br.height) := by
  intro fuel
  induction fuel with
  | zero =>
    intro elements cx cy l tl tr bl br q1 q2 q3 q4 hred
    rw [ParticleQuadTree.redistribute] at hred
    cases hsw : swap_remove_front l with
    | none =>
      rw [hsw] at hred
      simp only [Option.some_inj, Prod.mk.injEq] at hred
      obtain ⟨h1, h2, h3, h4⟩ := hred
      subst h1; subst h2; subst h3; subst h4
      simp
    | some p =>
      rw [hsw] at hred
      simp at hred
  | succ fuel ih =>
    intro elements cx cy l tl tr bl br q1 q2 q3 q4 hred
    rw [ParticleQuadTree.redistribute] at hred
    cases hsw : swap_remove_front l with
    | none =>
      rw [hsw] at hred
      simp only [Option.some_inj, Prod.mk.injEq] at hred
      obtain ⟨h1, h2, h3, h4⟩ := hred
      subst h1; subst h2; subst h3; subst h4
      simp
    | some p =>
      rw [hsw] at hred
      obtain ⟨element_index, rest⟩ := p
      simp only [Option.bind_eq_bind, Option.bind_eq_some] at hred
      obtain ⟨e, helem, hred⟩ := hred
      split at hred <;> split at hred <;>
        (rw [Option.bind_eq_some] at hred; obtain ⟨child2, hchild, hrest⟩ := hred;
          obtain ⟨-, -, hc, hw, hh, -, -, -⟩ :=
            ParticleQuadTree.insert_root_step fuel elements _ child2 element_index hchild;
          have hq := ih elements cx cy rest _ _ _ _ q1 q2 q3 q4 hrest)
      · exact ⟨⟨hq.1.1.trans hc, hq.1.2.1.trans hw, hq.1.2.2.trans hh⟩,
          hq.2.1, hq.2.2.1, hq.2.2.2⟩
      · exact ⟨hq.1, hq.2.1,
          ⟨hq.2.2.1.1.trans hc, hq.2.2.1.2.1.trans hw, hq.2.2.1.2.2.trans hh⟩, hq.2.2.2⟩
      · exact ⟨hq.1,
          ⟨hq.2.1.1.trans hc, hq.2.1.2.1.trans hw, hq.2.1.2.2.trans hh⟩, hq.2.2.1, hq.2.2.2⟩
      · exact ⟨hq.1, hq.2.1, hq.2.2.1,
          ⟨hq.2.2.2.1.trans hc, hq.2.2.2.2.1.trans hw, hq.2.2.2.2.2.trans hh⟩⟩

/-- C6 (amended): a successful insert into a leaf already at capacity turns
the node into an internal node whose four children have width `(w+2)/2` and
height `(h+2)/2` — half the parent dimension after inflating it by the
constant 2 — and centers offset from the parent center by exactly a quarter
of the inflated dimensions, `±(w+2)/4` in x and `±(h+2)/4` in y (not a
quarter of the parent's own width/height). -/
theorem ParticleQuadTree.split_child_geometry (fuel : Nat) (elements : List Particle)
    (c : Vector2D) (s : Particle) (w h : ℚ) (mc n : Nat) (l : List Nat) (index : Nat)
    (t2 : ParticleQuadTree)
    (hfull : ¬ l.length < mc)
    (hins : ParticleQuadTree.insert (fuel + 1) elements
      (ParticleQuadTree.mk c s w h mc n (.leaf l)) index = some t2) :
    t2.topLeft?.map (fun u => (u.center, u.width, u.height)) =
      some (⟨c.x - (w + 2) / 4, c.y - (h + 2) / 4⟩, (w + 2) / 2, (h + 2) / 2) ∧
    t2.topRight?.map (fun u => (u.center, u.width, u.height)) =
      some (⟨c.x + (w + 2) / 4, c.y - (h + 2) / 4⟩, (w + 2) / 2, (h + 2) / 2) ∧
    t2.bottomLeft?.map (fun u => (u.center, u.width, u.height)) =
      some (⟨c.x - (w + 2) / 4, c.y + (h + 2) / 4⟩, (w + 2) / 2, (h + 2) / 2) ∧
    t2.bottomRight?.map (fun u => (u.center, u.width, u.height)) =
      some (⟨c.x + (w + 2) / 4, c.y + (h + 2) / 4⟩, (w + 2) / 2, (h + 2) / 2) := by
  simp only [ParticleQuadTree.insert, Option.bind_eq_bind, Option.bind_eq_some] at hins
  obtain ⟨e, helem, hins⟩ := hins
  rw [if_neg hfull] at hins
  simp only [Option.bind_eq_some, Option.pure_def, Option.some_inj] at hins
  obtain ⟨⟨q1, q2, q3, q4⟩, hred, ht2⟩ := hins
  subst ht2
  obtain ⟨g1, g2, g3, g4⟩ :=
    ParticleQuadTree.redistribute_preserves_geometry fuel elements c.x c.y l
      _ _ _ _ q1 q2 q3 q4 hred
  simp only [ParticleQuadTree.new, ParticleQuadTree.center_mk, ParticleQuadTree.width_mk,
    ParticleQuadTree.height_mk] at g1 g2 g3 g4
  refine ⟨?_, ?_, ?_, ?_⟩ <;>
    simp only [ParticleQuadTree.topLeft?, ParticleQuadTree.topRight?,
      ParticleQuadTree.bottomLeft?, ParticleQuadTree.bottomRight?, Option.map_some',
      Option.some_inj, Prod.mk.injEq]
  · exact ⟨by rw [g1.1]; ext <;> simp <;> ring, by rw [g1.2.1], by rw [g1.2.2]⟩
  · exact ⟨by rw [g2.1]; ext <;> simp <;> ring, by rw [g2.2.1], by rw [g2.2.2]⟩
  · exact ⟨by rw [g3.1]; ext <;> simp <;> ring, by rw [g3.2.1], by rw [g3.2.2]⟩
  · exact ⟨by rw [g4.1]; ext <;> simp <;> ring, by rw [g4.2.1], by rw [g4.2.2]⟩

/-- Two particles straddling the center of a 4-by-4 box; the second insertion
into a capacity-1 tree forces a split. -/
def c6elements : List Particle :=
  [⟨⟨1, 1⟩, ⟨0, 0⟩, 1, 1⟩, ⟨⟨-1, -1⟩, ⟨0, 0⟩, 1, 1⟩]

/-- Counterexample to C6 as stated: splitting a parent of width 4 centered at
the origin produces a top-left child centered at (-3/2, -3/2), not at the
exact quarter-width offset (-1, -1) = (0 - 4/4, 0 - 4/4); the offset is a
quarter of the epsilon-inflated width (4+2)/4, not of the parent width. -/
theorem split_child_center_not_quarter_offset :
    ((((ParticleQuadTree.insert 3 c6elements (ParticleQuadTree.new ⟨0, 0⟩ 4 4 1) 0).bind
      (fun t => ParticleQuadTree.insert 3 c6elements t 1)).bind
        ParticleQuadTree.topLeft?).map (fun u => (u.center, u.width, u.height)) =
      some (⟨-(3/2), -(3/2)⟩, 3, 3)) ∧
    (⟨-(3/2), -(3/2)⟩ : Vector2D) ≠ ⟨0 - 4/4, 0 - 4/4⟩ := by
  constructor
  · norm_num [ParticleQuadTree.insert, ParticleQuadTree.redistribute, swap_remove_front,
      updatedSummary, ParticleQuadTree.new, c6elements, ParticleQuadTree.topLeft?]
  · intro hcontra
    rw [Vector2D.mk.injEq] at hcontra
    norm_num at hcontra

/-- One particle at (1,1); its index sits in a full capacity-1 leaf of a
4-by-4 node about to split. -/
def c6welems : List Particle := [⟨⟨1, 1⟩, ⟨0, 0⟩, 1, 1⟩]

/-- The tree produced by the witness split below, computed by evaluation. -/
def c6tree : ParticleQuadTree :=
  .mk ⟨0, 0⟩ ⟨⟨1, 1⟩, ⟨0, 0⟩, 0, 2⟩ 4 4 1 2 (.node
    (.mk ⟨-(3/2), -(3/2)⟩ ⟨⟨-(3/2), -(3/2)⟩, ⟨0, 0⟩, 0, 0⟩ 3 3 1 0 (.leaf []))
    (.mk ⟨3/2, -(3/2)⟩ ⟨⟨3/2, -(3/2)⟩, ⟨0, 0⟩, 0, 0⟩ 3 3 1 0 (.leaf []))
    (.mk ⟨-(3/2), 3/2⟩ ⟨⟨-(3/2), 3/2⟩, ⟨0, 0⟩, 0, 0⟩ 3 3 1 0 (.leaf []))
    (.mk ⟨3/2, 3/2⟩ ⟨⟨1, 1⟩, ⟨0, 0⟩, 0, 1⟩ 3 3 1 1 (.leaf [0])))

/-- Witness for the amended C6: a concrete split of a full capacity-1 leaf of
a 4-by-4 node centered at the origin yields four children of width and height
(4+2)/2 = 3 centered at the four points (±(4+2)/4, ±(4+2)/4). -/
theorem split_child_geometry_witness :
    (¬ ([0] : List Nat).length < 1) ∧
    ParticleQuadTree.insert 3 c6welems
      (ParticleQuadTree.mk ⟨0, 0⟩ ⟨⟨1, 1⟩, ⟨0, 0⟩, 0, 1⟩ 4 4 1 1 (.leaf [0])) 0 =
      some c6tree ∧
    (c6tree.topLeft?.map (fun u => (u.center, u.width, u.height)) =
      some (⟨(0 : ℚ) - (4 + 2) / 4, (0 : ℚ) - (4 + 2) / 4⟩, (4 + 2) / 2, (4 + 2) / 2) ∧
    c6tree.topRight?.map (fun u => (u.center, u.width, u.height)) =
      some (⟨(0 : ℚ) + (4 + 2) / 4, (0 : ℚ) - (4 + 2) / 4⟩, (4 + 2) / 2, (4 + 2) / 2) ∧
    c6tree.bottomLeft?.map (fun u => (u.center, u.width, u.height)) =
      some (⟨(0 : ℚ) - (4 + 2) / 4, (0 : ℚ) + (4 + 2) / 4⟩, (4 + 2) / 2, (4 + 2) / 2) ∧
    c6tree.bottomRight?.map (fun u => (u.center, u.width, u.height)) =
      some (⟨(0 : ℚ) + (4 + 2) / 4, (0 : ℚ) + (4 + 2) / 4⟩, (4 + 2) / 2, (4 + 2) / 2)) := by
  have hfull : ¬ ([0] : List Nat).length < 1 := by decide
  have hins : ParticleQuadTree.insert 3 c6welems
      (ParticleQuadTree.mk ⟨0, 0⟩ ⟨⟨1, 1⟩, ⟨0, 0⟩, 0, 1⟩ 4 4 1 1 (.leaf [0])) 0 =
      some c6tree := by
    norm_num [ParticleQuadTree.insert, ParticleQuadTree.redistribute, swap_remove_front,
      updatedSummary, ParticleQuadTree.new, c6welems, c6tree]
  exact ⟨hfull, hins,
    ParticleQuadTree.split_child_geometry 2 c6welems ⟨0, 0⟩ ⟨⟨1, 1⟩, ⟨0, 0⟩, 0, 1⟩
      4 4 1 1 [0] 0 c6tree hfull hins⟩

/-- C8: routing asymmetry on the boundary.  First conjunct: inserting a
particle lying exactly on the node's center into an internal node takes the
non-strict branches (`x ≤ cx`, `y ≤ cy`) and therefore recurses into the
top-left child, leaving the other three children untouched.  Second conjunct:
when a full capacity-1 leaf holding an index whose particle lies exactly on
the center splits, the redistribution's strict `<` comparisons fail on both
axes, so that index lands in the bottom-right child and the three other fresh
children stay empty. -/
theorem insert_routing_le_but_split_redistribution_lt :
    (∀ (fuel : Nat) (elements : List Particle) (index : Nat) (e : Particle)
      (c : Vector2D) (s : Particle) (w h : ℚ) (mc n : Nat)
      (tl tr bl br : ParticleQuadTree),
      elements[index]? = some e → e.position = c →
      ParticleQuadTree.insert (fuel + 1) elements
        (ParticleQuadTree.mk c s w h mc n (.node tl tr bl br)) index =
      (ParticleQuadTree.insert fuel elements tl index).bind (fun tl2 =>
        some (ParticleQuadTree.mk c (updatedSummary s n e).1 w h mc
          (updatedSummary s n e).2 (.node tl2 tr bl br)))) ∧
    (∀ (fuel : Nat) (elements : List Particle) (index j : Nat) (e ej : Particle)
      (c : Vector2D) (s : Particle) (w h : ℚ) (n : Nat) (t2 : ParticleQuadTree),
      elements[index]? = some e → elements[j]? = some ej → ej.position = c →
      ParticleQuadTree.insert (fuel + 3) elements
        (ParticleQuadTree.mk c s w h 1 n (.leaf [j])) index = some t2 →
      t2.bottomRight?.map ParticleQuadTree.allIndices = some [j] ∧
      t2.topLeft?.map ParticleQuadTree.allIndices = some [] ∧
      t2.topRight?.map ParticleQuadTree.allIndices = some [] ∧
      t2.bottomLeft?.map ParticleQuadTree.allIndices = some []) := by
  constructor
  · intro fuel elements index e c s w h mc n tl tr bl br helem hpos
    subst hpos
    simp [ParticleQuadTree.insert, helem]
  · intro fuel elements index j e ej c s w h n t2 helem helemj hpos hins
    subst hpos
    simp only [ParticleQuadTree.insert, ParticleQuadTree.redistribute, swap_remove_front,
      helem, helemj, ParticleQuadTree.new, Option.bind_eq_bind, Option.some_bind,
      List.length_singleton, lt_self_iff_false, ite_false, if_neg, List.length_nil,
      Nat.zero_lt_one, ite_true, if_pos, Option.pure_def, Option.some_inj] at hins
    subst hins
    simp [ParticleQuadTree.topLeft?, ParticleQuadTree.topRight?,
      ParticleQuadTree.bottomLeft?, ParticleQuadTree.bottomRight?,
      ParticleQuadTree.allIndices, ParticleQuadTree.new]

/-- A single particle lying exactly at the node center (0,0). -/
def c8elems : List Particle := [⟨⟨0, 0⟩, ⟨0, 0⟩, 1, 1⟩]

/-- Result of splitting a full capacity-1 leaf (holding the center particle)
by a second insert of the same index: the redistributed boundary index lands
in the bottom-right child. -/
def c8tree : ParticleQuadTree :=
  .mk ⟨0, 0⟩ ⟨⟨0, 0⟩, ⟨0, 0⟩, 0, 2⟩ 10 10 1 2 (.node
    (ParticleQuadTree.new ⟨-3, -3⟩ 6 6 1) (ParticleQuadTree.new ⟨3, -3⟩ 6 6 1)
    (ParticleQuadTree.new ⟨-3, 3⟩ 6 6 1)
    (.mk ⟨3, 3⟩ ⟨⟨0, 0⟩, ⟨0, 0⟩, 0, 1⟩ 6 6 1 1 (.leaf [0])))

/-- Witness for C8: for the particle lying exactly at the center (0,0),
normal routing on an internal node sends it to the top-left child (non-strict
comparison), while split redistribution sends the very same particle's index
to the bottom-right child (strict comparison). -/
theorem insert_routing_le_but_split_redistribution_lt_witness :
    (c8elems[0]? = some ⟨⟨0, 0⟩, ⟨0, 0⟩, 1, 1⟩) ∧
    ((⟨⟨0, 0⟩, ⟨0, 0⟩, 1, 1⟩ : Particle).position = ⟨0, 0⟩) ∧
    (ParticleQuadTree.insert (2 + 1) c8elems
      (ParticleQuadTree.mk ⟨0, 0⟩ ⟨⟨0, 0⟩, ⟨0, 0⟩, 0, 1⟩ 10 10 1 1 (.node
        (ParticleQuadTree.new ⟨-3, -3⟩ 6 6 1) (ParticleQuadTree.new ⟨3, -3⟩ 6 6 1)
        (ParticleQuadTree.new ⟨-3, 3⟩ 6 6 1) (ParticleQuadTree.new ⟨3, 3⟩ 6 6 1))) 0 =
      (ParticleQuadTree.insert 2 c8elems (ParticleQuadTree.new ⟨-3, -3⟩ 6 6 1) 0).bind
        (fun tl2 => some (ParticleQuadTree.mk ⟨0, 0⟩
          (updatedSummary ⟨⟨0, 0⟩, ⟨0, 0⟩, 0, 1⟩ 1 ⟨⟨0, 0⟩, ⟨0, 0⟩, 1, 1⟩).1 10 10 1
          (updatedSummary ⟨⟨0, 0⟩, ⟨0, 0⟩, 0, 1⟩ 1 ⟨⟨0, 0⟩, ⟨0, 0⟩, 1, 1⟩).2
          (.node tl2 (ParticleQuadTree.new ⟨3, -3⟩ 6 6 1)
            (ParticleQuadTree.new ⟨-3, 3⟩ 6 6 1) (ParticleQuadTree.new ⟨3, 3⟩ 6 6 1))))) ∧
    (ParticleQuadTree.insert (0 + 3) c8elems
      (ParticleQuadTree.mk ⟨0, 0⟩ ⟨⟨0, 0⟩, ⟨0, 0⟩, 0, 1⟩ 10 10 1 1 (.leaf [0])) 0 =
      some c8tree) ∧
    (c8tree.bottomRight?.map ParticleQuadTree.allIndices = some [0] ∧
      c8tree.topLeft?.map ParticleQuadTree.allIndices = some [] ∧
      c8tree.topRight?.map ParticleQuadTree.allIndices = some [] ∧
      c8tree.bottomLeft?.map ParticleQuadTree.allIndices = some []) := by
  have hins : ParticleQuadTree.insert (0 + 3) c8elems
      (ParticleQuadTree.mk ⟨0, 0⟩ ⟨⟨0, 0⟩, ⟨0, 0⟩, 0, 1⟩ 10 10 1 1 (.leaf [0])) 0 =
      some c8tree := by
    norm_num [ParticleQuadTree.insert, ParticleQuadTree.redistribute, swap_remove_front,
      updatedSummary, ParticleQuadTree.new, c8elems, c8tree]
  refine ⟨rfl, rfl, ?_, hins, ?_⟩
  · exact insert_routing_le_but_split_redistribution_lt.1 2 c8elems 0
      ⟨⟨0, 0⟩, ⟨0, 0⟩, 1, 1⟩ ⟨0, 0⟩ ⟨⟨0, 0⟩, ⟨0, 0⟩, 0, 1⟩ 10 10 1 1
      (ParticleQuadTree.new ⟨-3, -3⟩ 6 6 1) (ParticleQuadTree.new ⟨3, -3⟩ 6 6 1)
      (ParticleQuadTree.new ⟨-3, 3⟩ 6 6 1) (ParticleQuadTree.new ⟨3, 3⟩ 6 6 1) rfl rfl
  · exact insert_routing_le_but_split_redistribution_lt.2 0 c8elems 0 0
      ⟨⟨0, 0⟩, ⟨0, 0⟩, 1, 1⟩ ⟨⟨0, 0⟩, ⟨0, 0⟩, 1, 1⟩ ⟨0, 0⟩ ⟨⟨0, 0⟩, ⟨0, 0⟩, 0, 1⟩
      10 10 1 c8tree rfl rfl rfl hins

/-- An `Option`-valued left fold whose body never fails computes the pure
left fold. -/
theorem foldlM_option_of_forall_some {α β : Type} (l : List β) (f : α → β → Option α)
    (g : α → β → α) (hfg : ∀ a : α, ∀ b ∈ l, f a b = some (g a b)) :
    ∀ a0 : α, l.foldlM f a0 = some (l.foldl g a0) := by
  induction l with
  | nil => intro a0; rfl
  | cons b bs ih =>
    intro a0
    rw [List.foldlM_cons, hfg a0 b (by simp), Option.bind_eq_bind, Option.some_bind,
      List.foldl_cons]
    exact ih (fun a c hc => hfg a c (by simp [hc])) (g a0 b)

/-- An `Option`-valued map whose body never fails computes the pure map. -/
theorem mapM_option_of_forall_some {β γ : Type} (l : List β) (f : β → Option γ)
    (g : β → γ) (hfg : ∀ b ∈ l, f b = some (g b)) : l.mapM f = some (l.map g) := by
  induction l with
  | nil => rfl
  | cons b bs ih =>
    rw [List.mapM_cons, hfg b (by simp), Option.bind_eq_bind, Option.some_bind,
      ih (fun c hc => hfg c (by simp [hc])), Option.bind_eq_bind, Option.some_bind]
    rfl

/-- Folding accumulation that skips the index `i` sums the contributions of
every other list element. -/
theorem foldl_skip_add_eq_sum (c : Nat → Vector2D) (i : Nat) :
    ∀ (l : List Nat) (v0 : Vector2D),
      l.foldl (fun dv j => if i = j then dv else dv + c j) v0 =
        v0 + ((l.filter (fun j => i ≠ j)).map c).sum := by
  intro l
  induction l with
  | nil => intro v0; simp
  | cons j js ih =>
    intro v0
    rw [List.foldl_cons]
    by_cases hij : i = j
    · subst hij
      have h1 : (if i = i then v0 else v0 + c i) = v0 := if_pos rfl
      have h2 : List.filter (fun j => i ≠ j) (i :: js) =
          List.filter (fun j => i ≠ j) js := by simp
      rw [h1, ih v0, h2]
    · simp only [if_neg hij, ih (v0 + c j), List.filter_cons]
      have : (decide (i ≠ j)) = true := by simp [hij]
      rw [this]
      simp [add_assoc]

/-- Plain left-fold accumulation sums the mapped contributions. -/
theorem foldl_add_map_eq_sum {γ : Type} (c : γ → Vector2D) :
    ∀ (l : List γ) (v0 : Vector2D),
      l.foldl (fun dv p => dv + c p) v0 = v0 + (l.map c).sum := by
  intro l
  induction l with
  | nil => intro v0; simp
  | cons p ps ih =>
    intro v0
    rw [List.foldl_cons, ih (v0 + c p)]
    simp [add_assoc]

/-- Specification-side delta velocity, following the claim's words: the sum,
over every other slot of the same leaf and over every summary particle in the
distant-summaries list, of
`(p2.position - p1.position) * (G * p2.mass / |p2.position - p1.position|²) * dt`,
evaluated on the given (pre-tick) particle buffer. -/
def specDeltaV (elements : List Particle) (grav_const elapsed_s : ℚ)
    (element_indices : List Nat) (summaries : List Particle) (i : Nat) : Vector2D :=
  let p1 := elements.getD (element_indices.getD i 0) default
  let accel := fun p2 : Particle =>
    ((p2.position.sub p1.position).smul
      (grav_const * p2.mass / (p2.position.sub p1.position).length_sq)).smul elapsed_s
  (((List.range element_indices.length).filter (fun j => i ≠ j)).map (fun j =>
      accel (elements.getD (element_indices.getD j 0) default))).sum +
  (summaries.map accel).sum

/-- With in-bounds leaf indices, the delta-velocity loop of the source
succeeds and computes exactly the specification sum. -/
theorem deltaVFor_eq_specDeltaV (elements : List Particle) (grav_const elapsed_s : ℚ)
    (element_indices : List Nat) (summaries : List Particle) (k : Nat)
    (hbound : ∀ i ∈ element_indices, i < elements.length)
    (hk : k < element_indices.length) :
    deltaVFor elements grav_const elapsed_s element_indices summaries k =
      some (specDeltaV elements grav_const elapsed_s element_indices summaries k) := by
  have hgetk : element_indices.getD k 0 = element_indices[k] := by
    simp [List.getD_eq_getElem?_getD, List.getElem?_eq_getElem hk]
  have hbk : element_indices[k] < elements.length := hbound _ (List.getElem_mem hk)
  have hgetp1 : elements.getD (element_indices.getD k 0) default =
      elements[element_indices[k]] := by
    rw [hgetk]
    simp [List.getD_eq_getElem?_getD, List.getElem?_eq_getElem hbk]
  have hkidx : element_indices[k]? = some (element_indices.getD k 0) := by
    rw [List.getElem?_eq_getElem hk, hgetk]
  have hp1 : elements[element_indices.getD k 0]? = some (elements[element_indices[k]]) := by
    rw [hgetk, List.getElem?_eq_getElem hbk]
  unfold deltaVFor
  rw [foldlM_option_of_forall_some _ _
    (fun dv j => if k = j then dv else dv + pairContribution grav_const elapsed_s
      (elements.getD (element_indices.getD k 0) default)
      (elements.getD (element_indices.getD j 0) default)) ?hbody 0]
  case hbody =>
    intro dv j hj
    have hjlen : j < element_indices.length := List.mem_range.mp hj
    by_cases hkj : k = j
    · simp [hkj]
    · have hgetj : element_indices.getD j 0 = element_indices[j] := by
        simp [List.getD_eq_getElem?_getD, List.getElem?_eq_getElem hjlen]
      have hbj : element_indices[j] < elements.length := hbound _ (List.getElem_mem hjlen)
      have hgetp2 : elements.getD element_indices[j] default =
          elements[element_indices[j]] := by
        simp [List.getD_eq_getElem?_getD, List.getElem?_eq_getElem hbj]
      simp only [if_neg hkj, hkidx, hp1, List.getElem?_eq_getElem hjlen, hgetj,
        List.getElem?_eq_getElem hbj, Option.bind_eq_bind, Option.some_bind,
        Option.pure_def, Option.some_inj]
      rw [hgetp1, hgetp2]
  simp only [Option.bind_eq_bind, Option.some_bind]
  rw [foldlM_option_of_forall_some _ _
    (fun dv p2 => dv + pairContribution grav_const elapsed_s
      (elements.getD (element_indices.getD k 0) default) p2) ?hbody2]
  case hbody2 =>
    intro dv p2 _
    simp only [hkidx, hp1, Option.bind_eq_bind, Option.some_bind, Option.pure_def,
      Option.some_inj]
    rw [hgetp1]
  rw [foldl_skip_add_eq_sum, foldl_add_map_eq_sum, zero_add]
  rfl

/-- Prefix characterization of the apply loop of the leaf tick: after
processing the first `n` slots, each processed particle carries its
integrated update (computed from the loop-entry buffer) and every other
buffer entry is untouched. -/
theorem applyUpdates_prefix (elapsed_s : ℚ) (element_indices : List Nat)
    (delta_velocities : List Vector2D) (elements : List Particle)
    (hlen : element_indices.length ≤ delta_velocities.length)
    (hbound : ∀ i ∈ element_indices, i < elements.length)
    (hnodup : element_indices.Nodup) :
    ∀ n, n ≤ element_indices.length →
      ∃ out, (List.range n).foldlM (fun els i => do
          let idx ← element_indices[i]?
          let p ← els[idx]?
          let dv ← delta_velocities[i]?
          let v2 := p.velocity + dv
          pure (els.set idx
            { p with velocity := v2, position := p.position + v2.smul elapsed_s }))
          elements = some out ∧
        out.length = elements.length ∧
        (∀ k, k < n → out[element_indices.getD k 0]? =
          some (let p := elements.getD (element_indices.getD k 0) default
                let dv := delta_velocities.getD k 0
                { p with velocity := p.velocity + dv,
                         position := p.position + (p.velocity + dv).smul elapsed_s })) ∧
        (∀ m, (∀ k, k < n → element_indices.getD k 0 ≠ m) → out[m]? = elements[m]?) := by
  intro n
  induction n with
  | zero =>
    intro _
    exact ⟨elements, rfl, rfl, fun k hk => absurd hk (Nat.not_lt_zero k),
      fun m _ => rfl⟩
  | succ n ih =>
    intro hn1
    have hn : n < element_indices.length := hn1
    obtain ⟨out, hfold, hlen2, hset, hother⟩ := ih (Nat.le_of_lt hn)
    have hgetn : element_indices.getD n 0 = element_indices[n] := by
      simp [List.getD_eq_getElem?_getD, List.getElem?_eq_getElem hn]
    have hbn : element_indices[n] < elements.length :=
      hbound _ (List.getElem_mem hn)
    have hdvn : n < delta_velocities.length := Nat.lt_of_lt_of_le hn hlen
    have hgetdv : delta_velocities.getD n 0 = delta_velocities[n] := by
      simp [List.getD_eq_getElem?_getD, List.getElem?_eq_getElem hdvn]
    have huntouched : out[element_indices[n]]? = elements[element_indices[n]]? := by
      apply hother
      intro k hk hcontra
      have hklen : k < element_indices.length := Nat.lt_trans hk hn
      have hgetkk : element_indices.getD k 0 = element_indices[k] := by
        simp [List.getD_eq_getElem?_getD, List.getElem?_eq_getElem hklen]
      rw [hgetkk] at hcontra
      exact absurd (hnodup.getElem_inj_iff.mp hcontra) (Nat.ne_of_lt hk)
    have hgetp : elements.getD element_indices[n] default =
        elements[element_indices[n]] := by
      simp [List.getD_eq_getElem?_getD, List.getElem?_eq_getElem hbn]
    refine ⟨out.set element_indices[n]
      { elements[element_indices[n]] with
          velocity := elements[element_indices[n]].velocity + delta_velocities[n],
          position := elements[element_indices[n]].position +
            (elements[element_indices[n]].velocity + delta_velocities[n]).smul elapsed_s },
      ?_, ?_, ?_, ?_⟩
    · rw [List.range_succ, List.foldlM_append, hfold]
      simp only [Option.bind_eq_bind, Option.some_bind, List.foldlM_cons, List.foldlM_nil,
        List.getElem?_eq_getElem hn, huntouched, List.getElem?_eq_getElem hbn,
        List.getElem?_eq_getElem hdvn, Option.pure_def, Option.some_inj]
    · rw [List.length_set, hlen2]
    · intro k hk
      rcases Nat.lt_or_ge k n with hkn | hkn
      · have hklen : k < element_indices.length := Nat.lt_trans hkn hn
        have hgetkk : element_indices.getD k 0 = element_indices[k] := by
          simp [List.getD_eq_getElem?_getD, List.getElem?_eq_getElem hklen]
        have hne : element_indices[n] ≠ element_indices.getD k 0 := by
          rw [hgetkk]
          intro hcontra
          exact absurd (hnodup.getElem_inj_iff.mp hcontra)
            (Nat.ne_of_gt hkn)
        rw [List.getElem?_set_ne hne]
        exact hset k hkn
      · have hkeq : k = n := Nat.le_antisymm (Nat.lt_succ_iff.mp hk) hkn
        subst hkeq
        rw [hgetn, List.getElem?_set_self (by rw [hlen2]; exact hbn), hgetp, hgetdv]
    · intro m hm
      have hmn : element_indices[n] ≠ m := by
        have := hm n (Nat.lt_succ_self n)
        rw [hgetn] at this
        exact this
      rw [List.getElem?_set_ne hmn]
      exact hother m (fun k hk => hm k (Nat.lt_trans hk (Nat.lt_succ_self n)))

/-- Core characterization of a leaf tick: with in-bounds, duplicate-free leaf
indices the pass succeeds, every delta velocity equals the specification sum
over the pre-tick buffer, each listed particle has its velocity updated first
and its position then advanced by the updated velocity, and every other
buffer entry is unchanged. -/
theorem tick_leaf_spec (c : Vector2D) (s : Particle) (w h : ℚ) (mc n : Nat)
    (element_indices : List Nat) (elements : List Particle)
    (grav_const elapsed_s : ℚ) (summaries : List Particle)
    (hbound : ∀ i ∈ element_indices, i < elements.length)
    (hnodup : element_indices.Nodup) :
    ∃ out, (ParticleQuadTree.mk c s w h mc n (.leaf element_indices)).tick_with_summaries
        elements grav_const elapsed_s summaries = some out ∧
      out.length = elements.length ∧
      (∀ k, k < element_indices.length →
        out[element_indices.getD k 0]? =
          some (let p := elements.getD (element_indices.getD k 0) default
                let dv := specDeltaV elements grav_const elapsed_s element_indices summaries k
                { p with velocity := p.velocity + dv,
                         position := p.position + (p.velocity + dv).smul elapsed_s })) ∧
      (∀ m, m ∉ element_indices → out[m]? = elements[m]?) := by
  have hmapM : (List.range element_indices.length).mapM
      (deltaVFor elements grav_const elapsed_s element_indices summaries) =
      some ((List.range element_indices.length).map
        (specDeltaV elements grav_const elapsed_s element_indices summaries)) :=
    mapM_option_of_forall_some _ _ _ (fun j hj =>
      deltaVFor_eq_specDeltaV elements grav_const elapsed_s element_indices summaries j
        hbound (List.mem_range.mp hj))
  obtain ⟨out, hfold, hl, hs, ho⟩ := applyUpdates_prefix elapsed_s element_indices
    ((List.range element_indices.length).map
      (specDeltaV elements grav_const elapsed_s element_indices summaries)) elements
    (by simp) hbound hnodup element_indices.length (Nat.le_refl _)
  refine ⟨out, ?_, hl, ?_, ?ho2⟩
  case ho2 =>
    intro m hm
    refine ho m (fun k hk hcontra => hm ?_)
    rw [← hcontra]
    have hgetkk : element_indices.getD k 0 = element_indices[k] := by
      simp [List.getD_eq_getElem?_getD, List.getElem?_eq_getElem hk]
    rw [hgetkk]
    exact List.getElem_mem hk
  · simp only [ParticleQuadTree.tick_with_summaries, hmapM, Option.bind_eq_bind,
      Option.some_bind, applyUpdates]
    exact hfold
  · intro k hk
    have hdv : ((List.range element_indices.length).map
        (specDeltaV elements grav_const elapsed_s element_indices summaries)).getD k 0 =
        specDeltaV elements grav_const elapsed_s element_indices summaries k := by
      simp [List.getD_eq_getElem?_getD, List.getElem?_eq_getElem, hk]
    rw [hs k hk, hdv]

/-- C7: within any leaf processed by the tick pass, every per-particle delta
velocity is computed from the particle buffer as it was on entry to the leaf
(the pre-update snapshot `elements`, before any particle of the leaf is
modified), and each listed particle is then updated by `velocity := velocity
+ delta` first and `position := position + velocity * dt` second, the
position update using the freshly updated velocity (semi-implicit Euler). -/
theorem tick_leaf_snapshot_then_velocity_before_position
    (c : Vector2D) (s : Particle) (w h : ℚ) (mc n : Nat)
    (element_indices : List Nat) (elements : List Particle)
    (grav_const elapsed_s : ℚ) (summaries : List Particle)
    (hbound : ∀ i ∈ element_indices, i < elements.length)
    (hnodup : element_indices.Nodup) :
    ∃ out, (ParticleQuadTree.mk c s w h mc n (.leaf element_indices)).tick_with_summaries
        elements grav_const elapsed_s summaries = some out ∧
      (∀ k, k < element_indices.length →
        out[element_indices.getD k 0]? =
          some (let p := elements.getD (element_indices.getD k 0) default
                let dv := specDeltaV elements grav_const elapsed_s element_indices summaries k
                { p with velocity := p.velocity + dv,
                         position := p.position + (p.velocity + dv).smul elapsed_s })) := by
  obtain ⟨out, h1, -, h3, -⟩ := tick_leaf_spec c s w h mc n element_indices elements
    grav_const elapsed_s summaries hbound hnodup
  exact ⟨out, h1, h3⟩

/-- C3: for every particle held in a leaf processed by the tick pass, the
velocity it gains is exactly the sum, over every other particle co-resident
in the leaf and over every summary particle in the distant-summaries list, of
`(p2.position - p1.position) * (G * p2.mass / |p2.position - p1.position|²) * dt`
— the displacement-scaled (effective 1/r) formula — evaluated on the
pre-tick particle buffer. -/
theorem tick_leaf_delta_velocity_is_displacement_scaled_sum
    (c : Vector2D) (s : Particle) (w h : ℚ) (mc n : Nat)
    (element_indices : List Nat) (elements : List Particle)
    (grav_const elapsed_s : ℚ) (summaries : List Particle)
    (hbound : ∀ i ∈ element_indices, i < elements.length)
    (hnodup : element_indices.Nodup) :
    ∃ out, (ParticleQuadTree.mk c s w h mc n (.leaf element_indices)).tick_with_summaries
        elements grav_const elapsed_s summaries = some out ∧
      (∀ k, k < element_indices.length →
        (out[element_indices.getD k 0]?).map Particle.velocity =
          some ((elements.getD (element_indices.getD k 0) default).velocity +
            specDeltaV elements grav_const elapsed_s element_indices summaries k)) := by
  obtain ⟨out, h1, -, h3, -⟩ := tick_leaf_spec c s w h mc n element_indices elements
    grav_const elapsed_s summaries hbound hnodup
  refine ⟨out, h1, fun k hk => ?_⟩
  rw [h3 k hk]
  rfl

/-- The concrete scenario of C3: two unit-mass particles at (0,0) and (10,0),
both in one leaf (capacity 100). -/
def c3elements : List Particle :=
  [⟨⟨0, 0⟩, ⟨0, 0⟩, 1, 1⟩, ⟨⟨10, 0⟩, ⟨0, 0⟩, 1, 1⟩]

/-- Witness for C3 at the claim's own scenario: masses 1 at (0,0) and (10,0),
`max_capacity = 100`, `G = 10`, `dt = 1/30`.  The particle at (0,0) gains
delta velocity `(10,0) * (10 * 1 / 100) * (1/30) = (1/30, 0)` and the other
particle the mirror value. -/
theorem tick_leaf_delta_velocity_witness :
    ([0, 1] : List Nat).Nodup ∧
    (∀ i ∈ ([0, 1] : List Nat), i < c3elements.length) ∧
    specDeltaV c3elements 10 (1/30) [0, 1] [] 0 = ⟨1/30, 0⟩ ∧
    specDeltaV c3elements 10 (1/30) [0, 1] [] 1 = ⟨-(1/30), 0⟩ ∧
    (((ParticleQuadTree.mk ⟨5, 0⟩ ⟨⟨5, 0⟩, ⟨0, 0⟩, 0, 2⟩ 20 20 100 2
        (.leaf [0, 1])).tick_with_summaries c3elements 10 (1/30) []).bind
      (fun out => out[0]?)).map Particle.velocity = some ⟨1/30, 0⟩ ∧
    (((ParticleQuadTree.mk ⟨5, 0⟩ ⟨⟨5, 0⟩, ⟨0, 0⟩, 0, 2⟩ 20 20 100 2
        (.leaf [0, 1])).tick_with_summaries c3elements 10 (1/30) []).bind
      (fun out => out[1]?)).map Particle.velocity = some ⟨-(1/30), 0⟩ := by
  have hnodup : ([0, 1] : List Nat).Nodup := by decide
  have hbound : ∀ i ∈ ([0, 1] : List Nat), i < c3elements.length := by decide
  have hdv0 : specDeltaV c3elements 10 (1/30) [0, 1] [] 0 = ⟨1/30, 0⟩ := by
    norm_num [specDeltaV, Vector2D.sub, Vector2D.smul, Vector2D.length_sq,
      c3elements, List.range_succ]
  have hdv1 : specDeltaV c3elements 10 (1/30) [0, 1] [] 1 = ⟨-(1/30), 0⟩ := by
    norm_num [specDeltaV, Vector2D.sub, Vector2D.smul, Vector2D.length_sq,
      c3elements, List.range_succ]
  obtain ⟨out, htick, hvel⟩ := tick_leaf_delta_velocity_is_displacement_scaled_sum
    ⟨5, 0⟩ ⟨⟨5, 0⟩, ⟨0, 0⟩, 0, 2⟩ 20 20 100 2 [0, 1] c3elements 10 (1/30) []
    hbound hnodup
  refine ⟨hnodup, hbound, hdv0, hdv1, ?_, ?_⟩
  · rw [htick, Option.some_bind]
    have h0 := hvel 0 (by decide)
    simp only [List.getD_cons_zero, List.getD_cons_succ] at h0
    rw [h0, hdv0]
    norm_num [c3elements]
  · rw [htick, Option.some_bind]
    have h1 := hvel 1 (by decide)
    simp only [List.getD_cons_zero, List.getD_cons_succ] at h1
    rw [h1, hdv1]
    norm_num [c3elements]

/-- Two particles of mass 2 at (0,0) and (4,0); the first has initial
velocity (1,0), so that the semi-implicit position update is visible. -/
def c7elements : List Particle :=
  [⟨⟨0, 0⟩, ⟨1, 0⟩, 1, 2⟩, ⟨⟨4, 0⟩, ⟨0, 0⟩, 1, 2⟩]

/-- Witness for C7: with `G = 8`, `dt = 1/2`, the particle at (0,0) with
initial velocity (1,0) gains delta velocity (2,0), so its velocity becomes
(3,0) and its position advances by the post-update velocity to (3/2, 0);
mirror for the particle at (4,0). -/
theorem tick_leaf_snapshot_then_velocity_before_position_witness :
    ([0, 1] : List Nat).Nodup ∧
    (∀ i ∈ ([0, 1] : List Nat), i < c7elements.length) ∧
    (((ParticleQuadTree.mk ⟨2, 0⟩ ⟨⟨2, 0⟩, ⟨0, 0⟩, 0, 4⟩ 10 10 3 2
        (.leaf [0, 1])).tick_with_summaries c7elements 8 (1/2) []).bind
      (fun out => out[0]?)) = some ⟨⟨3/2, 0⟩, ⟨3, 0⟩, 1, 2⟩ ∧
    (((ParticleQuadTree.mk ⟨2, 0⟩ ⟨⟨2, 0⟩, ⟨0, 0⟩, 0, 4⟩ 10 10 3 2
        (.leaf [0, 1])).tick_with_summaries c7elements 8 (1/2) []).bind
      (fun out => out[1]?)) = some ⟨⟨3, 0⟩, ⟨-2, 0⟩, 1, 2⟩ := by
  have hnodup : ([0, 1] : List Nat).Nodup := by decide
  have hbound : ∀ i ∈ ([0, 1] : List Nat), i < c7elements.length := by decide
  have hdv0 : specDeltaV c7elements 8 (1/2) [0, 1] [] 0 = ⟨2, 0⟩ := by
    norm_num [specDeltaV, Vector2D.sub, Vector2D.smul, Vector2D.length_sq,
      c7elements, List.range_succ]
  have hdv1 : specDeltaV c7elements 8 (1/2) [0, 1] [] 1 = ⟨-2, 0⟩ := by
    norm_num [specDeltaV, Vector2D.sub, Vector2D.smul, Vector2D.length_sq,
      c7elements, List.range_succ]
  obtain ⟨out, htick, hupd⟩ := tick_leaf_snapshot_then_velocity_before_position
    ⟨2, 0⟩ ⟨⟨2, 0⟩, ⟨0, 0⟩, 0, 4⟩ 10 10 3 2 [0, 1] c7elements 8 (1/2) []
    hbound hnodup
  refine ⟨hnodup, hbound, ?_, ?_⟩
  · rw [htick, Option.some_bind]
    have h0 := hupd 0 (by decide)
    simp only [List.getD_cons_zero, List.getD_cons_succ] at h0
    rw [h0]
    simp only [hdv0]
    norm_num [c7elements, Vector2D.smul, Particle.ext_iff, Vector2D.ext_iff]
  · rw [htick, Option.some_bind]
    have h1 := hupd 1 (by decide)
    simp only [List.getD_cons_zero, List.getD_cons_succ] at h1
    rw [h1]
    simp only [hdv1]
    norm_num [c7elements, Vector2D.smul, Particle.ext_iff, Vector2D.ext_iff]

/-- Frame property of the apply loop, with no duplicate-freeness assumption:
it only writes entries whose index appears in `element_indices`, and every
write preserves the particle's radius and mass. -/
theorem applyUpdates_frame (elapsed_s : ℚ) (element_indices : List Nat)
    (delta_velocities : List Vector2D) :
    ∀ (L : List Nat) (els out : List Particle),
      L.foldlM (fun els i => do
          let idx ← element_indices[i]?
          let p ← els[idx]?
          let dv ← delta_velocities[i]?
          let v2 := p.velocity + dv
          pure (els.set idx
            { p with velocity := v2, position := p.position + v2.smul elapsed_s })) els
        = some out →
      out.length = els.length ∧
      (∀ m : Nat, (out[m]?).map Particle.radius = (els[m]?).map Particle.radius ∧
            (out[m]?).map Particle.mass = (els[m]?).map Particle.mass) ∧
      (∀ m, m ∉ element_indices → out[m]? = els[m]?) := by
  intro L
  induction L with
  | nil =>
    intro els out h
    simp only [List.foldlM_nil, Option.pure_def, Option.some_inj] at h
    subst h
    exact ⟨rfl, fun m => ⟨rfl, rfl⟩, fun m _ => rfl⟩
  | cons i L ih =>
    intro els out h
    rw [List.foldlM_cons] at h
    simp only [Option.bind_eq_bind, Option.bind_eq_some, Option.pure_def,
      Option.some_inj] at h
    obtain ⟨mid, ⟨idx, hidx, p, hp, dv, hdv, hmid⟩, hrest⟩ := h
    have hmem : idx ∈ element_indices := List.getElem?_mem hidx
    have hlt : idx < els.length := (List.getElem?_eq_some_iff.mp hp).1
    set newp : Particle :=
      { p with velocity := p.velocity + dv,
               position := p.position + (p.velocity + dv).smul elapsed_s } with hnewp
    rw [← hmid] at hrest
    obtain ⟨l2, rm2, u2⟩ := ih (els.set idx newp) out hrest
    refine ⟨l2.trans (List.length_set els idx newp), ?_, ?_⟩
    · intro m
      rcases eq_or_ne idx m with hm | hm
      · subst hm
        have h1 : (els.set idx newp)[idx]? = some newp :=
          List.getElem?_set_self hlt
        have h2 : newp.radius = p.radius := rfl
        have h3 : newp.mass = p.mass := rfl
        constructor
        · rw [(rm2 idx).1, h1, hp]
          simp [h2]
        · rw [(rm2 idx).2, h1, hp]
          simp [h3]
      · have h1 : (els.set idx newp)[m]? = els[m]? := List.getElem?_set_ne hm
        exact ⟨((rm2 m).1).trans (by rw [h1]), ((rm2 m).2).trans (by rw [h1])⟩
    · intro m hm
      have hne : idx ≠ m := fun hcontra => hm (hcontra ▸ hmem)
      rw [u2 m hm, List.getElem?_set_ne hne]

/-- Structural induction principle for the quadtree (the mutual inductive
does not get a directly usable eliminator for this shape). -/
def ParticleQuadTree.inductionOn {motive : ParticleQuadTree → Prop}
    (leaf : ∀ (c : Vector2D) (s : Particle) (w h : ℚ) (mc n : Nat) (l : List Nat),
      motive (.mk c s w h mc n (.leaf l)))
    (node : ∀ (c : Vector2D) (s : Particle) (w h : ℚ) (mc n : Nat)
      (tl tr bl br : ParticleQuadTree), motive tl → motive tr → motive bl → motive br →
      motive (.mk c s w h mc n (.node tl tr bl br))) :
    ∀ t, motive t
  | .mk c s w h mc n (.leaf l) => leaf c s w h mc n l
  | .mk c s w h mc n (.node tl tr bl br) =>
    node c s w h mc n tl tr bl br
      (ParticleQuadTree.inductionOn leaf node tl)
      (ParticleQuadTree.inductionOn leaf node tr)
      (ParticleQuadTree.inductionOn leaf node bl)
      (ParticleQuadTree.inductionOn leaf node br)

/-- Frame property of the recursive tick pass: the buffer keeps its length,
every particle keeps its radius and mass, and a particle whose index is
reachable in no leaf of the tree is entirely unchanged. -/
theorem ParticleQuadTree.tick_with_summaries_frame (t : ParticleQuadTree) :
    ∀ (elements out : List Particle) (grav_const elapsed_s : ℚ)
      (summaries : List Particle),
      t.tick_with_summaries elements grav_const elapsed_s summaries = some out →
      out.length = elements.length ∧
      (∀ m : Nat, (out[m]?).map Particle.radius = (elements[m]?).map Particle.radius ∧
            (out[m]?).map Particle.mass = (elements[m]?).map Particle.mass) ∧
      (∀ m, m ∉ t.allIndices → out[m]? = elements[m]?) := by
  induction t using ParticleQuadTree.inductionOn with
  | leaf c s w h mc n l =>
    intro elements out grav_const elapsed_s summaries htick
    simp only [ParticleQuadTree.tick_with_summaries, Option.bind_eq_bind,
      Option.bind_eq_some] at htick
    obtain ⟨dvs, -, happly⟩ := htick
    rw [applyUpdates] at happly
    obtain ⟨l1, rm1, u1⟩ := applyUpdates_frame elapsed_s l dvs
      (List.range l.length) elements out happly
    refine ⟨l1, rm1, fun m hm => u1 m ?_⟩
    simpa [ParticleQuadTree.allIndices] using hm
  | node c s w h mc n tl tr bl br ihtl ihtr ihbl ihbr =>
    intro elements out grav_const elapsed_s summaries htick
    simp only [ParticleQuadTree.tick_with_summaries, Option.bind_eq_bind,
      Option.bind_eq_some] at htick
    obtain ⟨e1, h1, e2, h2, e3, h3, h4⟩ := htick
    obtain ⟨l1, rm1, u1⟩ := ihtl elements e1 grav_const elapsed_s _ h1
    obtain ⟨l2, rm2, u2⟩ := ihtr e1 e2 grav_const elapsed_s _ h2
    obtain ⟨l3, rm3, u3⟩ := ihbl e2 e3 grav_const elapsed_s _ h3
    obtain ⟨l4, rm4, u4⟩ := ihbr e3 out grav_const elapsed_s _ h4
    refine ⟨(l4.trans l3).trans (l2.trans l1), fun m => ?_, fun m hm => ?_⟩
    · exact ⟨(((rm4 m).1.trans (rm3 m).1).trans (rm2 m).1).trans (rm1 m).1,
        (((rm4 m).2.trans (rm3 m).2).trans (rm2 m).2).trans (rm1 m).2⟩
    · simp only [ParticleQuadTree.allIndices, List.mem_append, not_or] at hm
      obtain ⟨⟨⟨hm1, hm2⟩, hm3⟩, hm4⟩ := hm
      rw [u4 m hm4, u3 m hm3, u2 m hm2, u1 m hm1]

/-- C9: `tick` mutates only velocities and positions of particles reachable
in the tree's leaves: the buffer's length is unchanged, every particle's
radius and mass are unchanged, and a particle whose index is reachable in no
leaf is entirely unchanged.  The tree itself cannot change: in the source,
`tick` takes the tree by shared reference (`&self`); the embedding makes the
pass a function of the tree returning only the updated buffer. -/
theorem ParticleQuadTree.tick_frame_conditions (t : ParticleQuadTree)
    (elements out : List Particle) (grav_const elapsed_s : ℚ)
    (htick : t.tick elements grav_const elapsed_s = some out) :
    out.length = elements.length ∧
    (∀ m : Nat, (out[m]?).map Particle.radius = (elements[m]?).map Particle.radius ∧
          (out[m]?).map Particle.mass = (elements[m]?).map Particle.mass) ∧
    (∀ m, m ∉ t.allIndices → out[m]? = elements[m]?) :=
  ParticleQuadTree.tick_with_summaries_frame t elements out grav_const elapsed_s [] htick

/-- Two particles; only index 0 is held in the ticked leaf, index 1 is
reachable nowhere. -/
def c9elements : List Particle :=
  [⟨⟨0, 0⟩, ⟨1, 1⟩, 2, 3⟩, ⟨⟨7, 7⟩, ⟨2, 2⟩, 4, 5⟩]

/-- The buffer after the C9 witness tick: particle 0 drifted by its velocity,
particle 1 untouched. -/
def c9out : List Particle :=
  [⟨⟨1, 1⟩, ⟨1, 1⟩, 2, 3⟩, ⟨⟨7, 7⟩, ⟨2, 2⟩, 4, 5⟩]

/-- Witness for C9: a concrete tick preserves buffer length, radius and mass
of the ticked particle, and leaves the unreachable particle 1 entirely
unchanged. -/
theorem tick_frame_conditions_witness :
    (ParticleQuadTree.mk ⟨0, 0⟩ ⟨⟨0, 0⟩, ⟨1, 1⟩, 0, 3⟩ 10 10 3 1 (.leaf [0])).tick
        c9elements 10 1 = some c9out ∧
    c9out.length = c9elements.length ∧
    (c9out[0]?).map Particle.radius = (c9elements[0]?).map Particle.radius ∧
    (c9out[0]?).map Particle.mass = (c9elements[0]?).map Particle.mass ∧
    (1 : Nat) ∉ (ParticleQuadTree.mk ⟨0, 0⟩ ⟨⟨0, 0⟩, ⟨1, 1⟩, 0, 3⟩ 10 10 3 1
      (.leaf [0])).allIndices ∧
    c9out[1]? = c9elements[1]? := by
  have htick : (ParticleQuadTree.mk ⟨0, 0⟩ ⟨⟨0, 0⟩, ⟨1, 1⟩, 0, 3⟩ 10 10 3 1
      (.leaf [0])).tick c9elements 10 1 = some c9out := by
    norm_num [ParticleQuadTree.tick, ParticleQuadTree.tick_with_summaries,
      List.mapM, List.mapM.loop, deltaVFor, applyUpdates, pairContribution,
      Vector2D.sub, Vector2D.smul, Vector2D.length_sq, c9elements, c9out,
      List.range_succ]
  have hnotmem : (1 : Nat) ∉ (ParticleQuadTree.mk ⟨0, 0⟩ ⟨⟨0, 0⟩, ⟨1, 1⟩, 0, 3⟩ 10 10 3 1
      (.leaf [0])).allIndices := by decide
  obtain ⟨hl, hrm, hu⟩ := ParticleQuadTree.tick_frame_conditions _ _ _ _ _ htick
  exact ⟨htick, hl, (hrm 0).1, (hrm 0).2, hnotmem, hu 1 hnotmem⟩
